import Mathlib

/-!
Verification of the P2P file-sharing engine (tracker, chunk storage,
reputation store, download loop) against its natural-language
specification.  The Python sources are shallowly embedded: dictionaries
become association lists over `String` keys, byte strings become
`List Nat`, SQLite rows become pairs, and socket effects become explicit
input streams / result parameters.
-/

namespace P2P

/-- Bytes of a file or of a network payload (each entry is one byte value). -/
abbrev Byte := Nat

/-! ### Association lists (embedding of Python `dict`)

Python dictionaries have unique keys; we embed them as association lists
manipulated only through `lookupA` / `setA` / `eraseA`, which preserve
key uniqueness. -/

/-- Dictionary lookup: first value bound to key `k` (`d[k]` / `d.get(k)`). -/
def lookupA {β : Type} (k : String) : List (String × β) → Option β
  | [] => none
  | (k', v) :: rest => if k' = k then some v else lookupA k rest

/-- Dictionary update `d[k] = v`: replace the first binding of `k`, or append. -/
def setA {β : Type} (k : String) (v : β) : List (String × β) → List (String × β)
  | [] => [(k, v)]
  | (k', v') :: rest => if k' = k then (k, v) :: rest else (k', v') :: setA k v rest

/-- Dictionary deletion `del d[k]`: drop the first binding of `k` (no-op if absent). -/
def eraseA {β : Type} (k : String) : List (String × β) → List (String × β)
  | [] => []
  | (k', v') :: rest => if k' = k then rest else (k', v') :: eraseA k rest

/-! ### Reputation store (src/peer/reputation.py)

The SQLite table `reputation(peer_id PRIMARY KEY, score REAL,
interactions INTEGER)` is embedded as an association list from peer id to
`(score, interactions)`.  Scores are rationals (the Python floats carry
exact decimal values in all reachable computations of interest). -/

/-- `REPUTATION_RULES`: the event alphabet with its score deltas. -/
def REPUTATION_RULES : List (String × Int) :=
  [("SUCCESSFUL_UPLOAD", 3),
   ("SUCCESSFUL_DOWNLOAD", 3),
   ("VERIFIED_INTEGRITY", 2),
   ("CONNECTION_TIMEOUT", -1),
   ("REFUSED_UPLOAD", -3),
   ("CORRUPTED_DATA", -5)]

/-- `ALPHA`: weight for the old reputation. -/
def ALPHA : ℚ := 8 / 10

/-- `BETA`: weight for the new interaction. -/
def BETA : ℚ := 2 / 10

/-- `DEFAULT_REPUTATION`: starting reputation for unknown peers. -/
def DEFAULT_REPUTATION : ℚ := 10

/-- The reputation database: peer id ↦ (score, interactions). -/
abbrev RepDb := List (String × (ℚ × Nat))

/-- `ReputationManager.get_reputation`: current score of `peer_id`,
`DEFAULT_REPUTATION` if the peer has no row. -/
def get_reputation (db : RepDb) (peer_id : String) : ℚ :=
  match lookupA peer_id db with
  | some (s, _) => s
  | none => DEFAULT_REPUTATION

/-- `ReputationManager.update_reputation`: look up the delta for
`event_type` (unknown events are ignored), fetch the row (default
`(DEFAULT_REPUTATION, 0)`), apply `new = ALPHA*old + BETA*delta` and
upsert.  The SQL `ON CONFLICT ... interactions = interactions + 1`
increments the existing row's counter, which equals the fetched
`interactions + 1` also passed for the insert case, so both paths store
the fetched counter plus one. -/
def update_reputation (db : RepDb) (peer_id : String) (event_type : String) : RepDb :=
  match lookupA event_type REPUTATION_RULES with
  | none => db
  | some delta_r =>
    let row := (lookupA peer_id db).getD (DEFAULT_REPUTATION, 0)
    let new_score := ALPHA * row.1 + BETA * (delta_r : ℚ)
    setA peer_id (new_score, row.2 + 1) db

/-- Stable descending insertion: place `x` before the first element whose
score is at most `x`'s.  Elements already in the list keep their relative
order, and an element inserted later (i.e. earlier in the input of
`sortDesc`) precedes the ties it meets. -/
def insertDesc (x : String × ℚ) : List (String × ℚ) → List (String × ℚ)
  | [] => [x]
  | y :: ys => if y.2 ≤ x.2 then x :: y :: ys else y :: insertDesc x ys

/-- Embedding of Python's `list.sort(key=lambda p: p[1], reverse=True)`:
the unique *stable* reordering that is sorted by score descending.
Python's sort is stable (also with `reverse=True`), so it coincides with
this stable insertion sort. -/
def sortDesc : List (String × ℚ) → List (String × ℚ)
  | [] => []
  | x :: xs => insertDesc x (sortDesc xs)

/-- `ReputationManager.get_peers_sorted_by_reputation`: pair every id in
`peer_ids` with its current score and sort by score descending. -/
def get_peers_sorted_by_reputation (db : RepDb) (peer_ids : List String) :
    List (String × ℚ) :=
  sortDesc (peer_ids.map (fun pid => (pid, get_reputation db pid)))

/-! ### Chunk store (src/peer/storage.py)

`StorageManager`'s in-memory maps plus the observable effects of its
disk writes: the chunk files written to the downloads directory and the
last serialized copy of `storage_meta.json`. -/

/-- A file descriptor as produced by `file_utils.get_file_metadata` and
stored in `StorageManager.file_metadata`. -/
structure FileMeta where
  name : String
  size : Nat
  hash : String
  chunk_count : Nat
  chunk_hashes : List String
deriving Repr, DecidableEq

/-- State of one `StorageManager`: the three persisted maps, the chunk
files written to the downloads directory (`disk`), and the contents last
saved to `storage_meta.json` (`saved`). -/
structure StorageState where
  file_metadata : List (String × FileMeta)
  chunk_tracker : List (String × Finset Nat)
  file_locations : List (String × String)
  disk : List (String × List Byte)
  saved : Option (List (String × FileMeta) × List (String × Finset Nat) × List (String × String))
deriving DecidableEq

/-- Chunk file name `f"{file_hash}.{chunk_index}"`. -/
def chunkFileName (file_hash : String) (chunk_index : Nat) : String :=
  file_hash ++ "." ++ toString chunk_index

/-- `StorageManager._save_metadata_internal`: serialize the three maps to
`storage_meta.json` (write errors are swallowed by the source; we record
the successful write). -/
def save_metadata_internal (st : StorageState) : StorageState :=
  { st with saved := some (st.file_metadata, st.chunk_tracker, st.file_locations) }

/-- `StorageManager.store_chunk`: reject chunks for untracked hashes;
write the chunk file (an `IOError`, modelled by `writeOk = false`,
returns `False` leaving all maps untouched); then add the index to the
bitmap and persist the metadata.  `none` models the uncaught `KeyError`
raised by `self.chunk_tracker[file_hash]` when the hash has a descriptor
but no bitmap entry (unreachable through the public interface). -/
def store_chunk (writeOk : Bool) (st : StorageState) (file_hash : String)
    (chunk_index : Nat) (chunk_data : List Byte) : Option (Bool × StorageState) :=
  if (lookupA file_hash st.file_metadata).isNone then some (false, st)
  else if writeOk then
    let st₁ := { st with disk := st.disk ++ [(chunkFileName file_hash chunk_index, chunk_data)] }
    match lookupA file_hash st₁.chunk_tracker with
    | none => none
    | some owned =>
      let st₂ := { st₁ with
        chunk_tracker := setA file_hash (insert chunk_index owned) st₁.chunk_tracker }
      some (true, save_metadata_internal st₂)
  else some (false, st)

/-- `StorageManager.add_downloading_file`: register a download target
with an empty bitmap; a hash that is already tracked is left unchanged. -/
def add_downloading_file (st : StorageState) (file_meta : FileMeta) : StorageState :=
  if (lookupA file_meta.hash st.file_metadata).isNone then
    save_metadata_internal
      { st with
        file_metadata := setA file_meta.hash file_meta st.file_metadata,
        chunk_tracker := setA file_meta.hash ∅ st.chunk_tracker }
  else st

/-- `StorageManager.get_missing_chunks`: `{0..N−1}` minus the bitmap for
tracked hashes, and the empty set for untracked ones. -/
def get_missing_chunks (st : StorageState) (file_hash : String) : Finset Nat :=
  match lookupA file_hash st.file_metadata with
  | none => ∅
  | some meta =>
    (Finset.range meta.chunk_count) \ ((lookupA file_hash st.chunk_tracker).getD ∅)

/-- `StorageManager.is_download_complete`: `False` for untracked hashes,
otherwise "no missing chunks". -/
def is_download_complete (st : StorageState) (file_hash : String) : Bool :=
  match lookupA file_hash st.file_metadata with
  | none => false
  | some meta =>
    decide ((Finset.range meta.chunk_count) \ ((lookupA file_hash st.chunk_tracker).getD ∅) = ∅)

/-! ### Tracker (src/tracker/tracker.py)

Global tracker state: `file_index` maps a file hash to its index entry
(name, size, chunk_count and the set of advertising peers — the tracker
stores no chunk hashes), `peer_registry` maps a peer id to `(ip, port)`.
Peer sets are lists without duplicates (`.add` inserts only when
absent). -/

/-- One `file_index` entry (the dict built in `handle_register`). -/
structure TrackerEntry where
  name : String
  size : Nat
  chunk_count : Nat
  peers : List String
deriving Repr, DecidableEq

/-- The tracker's two global dictionaries. -/
structure TrackerState where
  file_index : List (String × TrackerEntry)
  peer_registry : List (String × (String × Nat))
deriving Repr, DecidableEq

/-- One entry of the `peers` list in a `query_file` success reply. -/
structure PeerEntry where
  id : String
  ip : String
  port : Nat
deriving Repr, DecidableEq

/-- JSON values appearing in tracker replies (strings, numbers, and the
list of peer dictionaries); a reply is an association list of fields. -/
inductive JVal where
  | jstr : String → JVal
  | jnum : Nat → JVal
  | jpeers : List PeerEntry → JVal
deriving Repr, DecidableEq

/-- Python `set.add` on a duplicate-free list. -/
def addPeer (pid : String) (peers : List String) : List String :=
  if pid ∈ peers then peers else peers ++ [pid]

/-- The body of `handle_register`'s `for file_info in files` loop: insert
a fresh entry for an unknown hash (empty peer set), then add the peer. -/
def registerFileOne (peer_id : String) (idx : List (String × TrackerEntry))
    (fi : FileMeta) : List (String × TrackerEntry) :=
  let entry := match lookupA fi.hash idx with
    | some e => e
    | none => ⟨fi.name, fi.size, fi.chunk_count, []⟩
  setA fi.hash { entry with peers := addPeer peer_id entry.peers } idx

/-- `handle_register`: record `peer_registry[peer_id] = (client_ip, port)`
and index every announced descriptor.  (The announced descriptors carry
`chunk_hashes`, the reply is always `{"status":"success"}` for
well-formed payloads; the tracker keeps only name/size/chunk_count.) -/
def handle_register (st : TrackerState) (peer_id : String) (port : Nat)
    (client_ip : String) (files : List FileMeta) : TrackerState :=
  { file_index := files.foldl (registerFileOne peer_id) st.file_index,
    peer_registry := setA peer_id (client_ip, port) st.peer_registry }

/-- The peers of a `query_file` reply: members of the entry's peer set
that are still present in `peer_registry`, with their addresses. -/
def foundPeers (st : TrackerState) (peers : List String) : List PeerEntry :=
  peers.filterMap fun pid =>
    (lookupA pid st.peer_registry).map fun a => ⟨pid, a.1, a.2⟩

/-- `handle_query_file`: error "File not found" for an unknown hash;
error "File found, but no active peers available" when no advertising
peer is registered; otherwise a success reply with `file_name`,
`file_size`, `chunk_count` and `peers` (no `chunk_hashes` field). -/
def handle_query_file (st : TrackerState) (file_hash : String) : List (String × JVal) :=
  match lookupA file_hash st.file_index with
  | none => [("status", .jstr "error"), ("message", .jstr "File not found")]
  | some info =>
    let found := foundPeers st info.peers
    if found.isEmpty then
      [("status", .jstr "error"), ("message", .jstr "File found, but no active peers available")]
    else
      [("status", .jstr "success"),
       ("file_name", .jstr info.name),
       ("file_size", .jnum info.size),
       ("chunk_count", .jnum info.chunk_count),
       ("peers", .jpeers found)]

/-- `handle_deregister`: drop the peer from the registry, remove it from
every entry's peer set, and prune entries whose peer set is empty. -/
def handle_deregister (st : TrackerState) (peer_id : String) : TrackerState :=
  { peer_registry := eraseA peer_id st.peer_registry,
    file_index :=
      (st.file_index.map fun p => (p.1, { p.2 with peers := p.2.peers.erase peer_id })).filter
        fun p => ¬ p.2.peers.isEmpty }

/-- The tracker's two mutating operations, as issued by client handler
threads. -/
inductive TrackerOp where
  | reg (peer_id : String) (port : Nat) (client_ip : String) (files : List FileMeta)
  | dereg (peer_id : String)

/-- One tracker transition. -/
def trackerStep (st : TrackerState) : TrackerOp → TrackerState
  | .reg pid port ip files => handle_register st pid port ip files
  | .dereg pid => handle_deregister st pid

/-- The tracker state reached from the initial empty state by a sequence
of operations. -/
def trackerRun (ops : List TrackerOp) : TrackerState :=
  ops.foldl trackerStep ⟨[], []⟩

/-- The tracker's structural invariant: registry keys are unique (it is
a dict), peer sets are duplicate-free, and every peer advertised in the
index is registered. -/
def TrackerInv (st : TrackerState) : Prop :=
  (st.peer_registry.map Prod.fst).Nodup ∧
  (∀ p ∈ st.file_index, p.2.peers.Nodup) ∧
  (∀ p ∈ st.file_index, ∀ q ∈ p.2.peers, (lookupA q st.peer_registry).isSome = true)

/-! ### File chunking (src/peer/file_utils.py)

`get_file_metadata` streams the file in `chunk_size` reads, hashing each
read until `f.read` returns the empty byte string.  The SHA-256 hex
digest is abstracted as a function parameter `hashFn`. -/

/-- The successive values of `f.read(chunk_size)` in the metadata loop:
each read returns the next `min(chunk_size, remaining)` bytes, and
`f.read(0)` returns `b""`, which ends the loop immediately. -/
def chunksOf : Nat → List Byte → List (List Byte)
  | _, [] => []
  | 0, _ :: _ => []
  | c + 1, x :: xs => ((x :: xs).take (c + 1)) :: chunksOf (c + 1) (xs.drop c)
termination_by _ l => l.length
decreasing_by
  simp only [List.length_drop, List.length_cons]
  omega

/-- `file_utils.get_file_metadata`: size, whole-file digest, and the
per-chunk digest list with its count, for a readable file whose bytes
are `content`.  `hashFn` stands for `hashlib.sha256(...).hexdigest()`. -/
def get_file_metadata (hashFn : List Byte → String) (file_name : String)
    (content : List Byte) (chunk_size : Nat) : FileMeta :=
  { name := file_name,
    size := content.length,
    hash := hashFn content,
    chunk_count := (chunksOf chunk_size content).length,
    chunk_hashes := (chunksOf chunk_size content).map hashFn }

/-! ### Chunk-reply header parsing (src/peer/network_utils.py)

`request_chunk_from_peer` reads the stream until
`json.JSONDecoder().raw_decode` succeeds on the buffered prefix; the
bytes after the parsed object are the start of the raw payload.  The
stdlib decoder is modelled by a brace-balancing scan sufficient for
JSON objects whose strings contain no backslash escapes (all headers
sent by `handle_peer_request` are of this shape); byte values:
34 = `"`, 123 = `{`, 125 = `}`. -/

/-- Modelled stdlib: scan for the end of the first complete JSON object,
tracking brace depth and string state; returns the index just past the
closing brace. -/
def scanObj : List Byte → Nat → Nat → Bool → Option Nat
  | [], _, _, _ => none
  | b :: rest, pos, depth, inStr =>
    if inStr then
      if b = 34 then scanObj rest (pos + 1) depth false
      else scanObj rest (pos + 1) depth true
    else if b = 34 then scanObj rest (pos + 1) depth true
    else if b = 123 then scanObj rest (pos + 1) (depth + 1) false
    else if b = 125 then
      if depth = 1 then some (pos + 1) else scanObj rest (pos + 1) (depth - 1) false
    else scanObj rest (pos + 1) depth false

/-- Modelled stdlib: `json.JSONDecoder().raw_decode` on the buffered
prefix — it fails unless the buffer starts with a complete JSON value
(here: an object) and otherwise returns the index just past it. -/
def raw_decode (buf : List Byte) : Option Nat :=
  match buf with
  | 123 :: _ => scanObj buf 0 0 false
  | _ => none

/-- The header-reading loop of `request_chunk_from_peer`: try to decode
the buffer; on failure append the next `recv` result and retry, and
return `none` when `recv` returns `b""` (peer disconnected).  The two
exception branches (`JSONDecodeError` → `recv(128)`,
`UnicodeDecodeError` → `recv(1)`) both extend the buffer by the next
block of the stream; `stream` lists the successive non-empty `recv`
results and its exhaustion models the closed connection.  On success the
result is `(index, buffer)`: the parse end (start of the over-read raw
payload `buffer[index:]`) and the full buffer consumed so far. -/
def recvHeader : List Byte → List (List Byte) → Option (Nat × List Byte)
  | buf, [] =>
    match raw_decode buf with
    | some idx => some (idx, buf)
    | none => none
  | buf, blk :: rest =>
    match raw_decode buf with
    | some idx => some (idx, buf)
    | none => recvHeader (buf ++ blk) rest

/-! ### The download loop (src/peer/peer.py, `Peer.download_file` step 4)

For each missing chunk the peer iterates over the reputation-sorted
address list: a fetched non-empty byte string is stored via
`store_chunk` and credited as `SUCCESSFUL_DOWNLOAD` (no digest check —
the source's comment defers verification), an empty/None reply records
`REFUSED_UPLOAD`, and an exception records `CONNECTION_TIMEOUT`.  If the
chunk was not obtained from any peer the whole download returns
("Aborting download"). -/

/-- A peer address `(ip, port)`. -/
abbrev Addr := String × Nat

/-- Outcome of one `network_utils.request_chunk_from_peer` call: bytes,
`None`, or a raised exception. -/
inductive FetchResult where
  | ok (data : List Byte)
  | failed
  | exn
deriving Repr, DecidableEq

/-- The `next(...)` reverse lookup of a peer id from its address in
`peer_addr_map`. -/
def reverseLookup (addr : Addr) : List (String × Addr) → Option String
  | [] => none
  | (pid, a) :: rest => if a = addr then some pid else reverseLookup addr rest

/-- The guarded reputation update `if peer_id_for_rep: update_reputation(...)`. -/
def updateRepOpt (db : RepDb) (pid? : Option String) (event : String) : RepDb :=
  match pid? with
  | some pid => update_reputation db pid event
  | none => db

/-- Python truthiness of the `chunk_data` variable (`None` and `b""` are
falsy). -/
def pythonTruthy : Option (List Byte) → Bool
  | some (_ :: _) => true
  | _ => false

/-- The inner `for peer_addr in sorted_peer_addrs` loop for one chunk
`i`: returns the updated storage, reputation DB and the final value of
`chunk_data`.  `prev` is the value `chunk_data` retains when
`request_chunk_from_peer` raises before assigning it.  A `store_chunk`
`KeyError` (untracked hash; unreachable after `add_downloading_file`)
is caught by the generic `except` like any other exception. -/
def tryPeers (fetch : Addr → Nat → FetchResult) (map : List (String × Addr))
    (H : String) (i : Nat) :
    List Addr → StorageState → RepDb → Option (List Byte) →
    StorageState × RepDb × Option (List Byte)
  | [], st, db, prev => (st, db, prev)
  | addr :: rest, st, db, prev =>
    let pid? := reverseLookup addr map
    match fetch addr i with
    | .exn =>
      tryPeers fetch map H i rest st (updateRepOpt db pid? "CONNECTION_TIMEOUT") prev
    | .failed =>
      tryPeers fetch map H i rest st (updateRepOpt db pid? "REFUSED_UPLOAD") none
    | .ok data =>
      if data.isEmpty then
        tryPeers fetch map H i rest st (updateRepOpt db pid? "REFUSED_UPLOAD") (some data)
      else
        match store_chunk true st H i data with
        | some (_, st') => (st', updateRepOpt db pid? "SUCCESSFUL_DOWNLOAD", some data)
        | none =>
          tryPeers fetch map H i rest st (updateRepOpt db pid? "CONNECTION_TIMEOUT") (some data)

/-- The outer `for chunk_index in missing_chunks` loop: runs `tryPeers`
per chunk and returns `(storage, reputation, completed)`, where
`completed = false` is the early `return # Abort download` taken when a
chunk was obtained from no peer. -/
def downloadLoop (fetch : Addr → Nat → FetchResult) (map : List (String × Addr))
    (addrs : List Addr) (H : String) :
    List Nat → StorageState → RepDb → StorageState × RepDb × Bool
  | [], st, db => (st, db, true)
  | i :: rest, st, db =>
    let r := tryPeers fetch map H i addrs st db none
    if pythonTruthy r.2.2 then downloadLoop fetch map addrs H rest r.1 r.2.1
    else (r.1, r.2.1, false)

/-- The descending-score order used by the download scheduler. -/
def scoreGE (a b : String × ℚ) : Prop := b.2 ≤ a.2

@[simp] theorem lookupA_nil {β : Type} (k : String) : lookupA (β := β) k [] = none := rfl

@[simp] theorem lookupA_cons {β : Type} (k k' : String) (v : β) (rest : List (String × β)) :
    lookupA k ((k', v) :: rest) = if k' = k then some v else lookupA k rest := rfl

theorem lookupA_setA_self {β : Type} (k : String) (v : β) (l : List (String × β)) :
    lookupA k (setA k v l) = some v := by
  induction l with
  | nil => simp [setA]
  | cons hd tl ih =>
    obtain ⟨k', v'⟩ := hd
    by_cases h : k' = k
    · simp [setA, h]
    · simp [setA, h, ih]

theorem lookupA_setA_ne {β : Type} (k k₀ : String) (v : β) (l : List (String × β))
    (h : k₀ ≠ k) : lookupA k (setA k₀ v l) = lookupA k l := by
  induction l with
  | nil => simp [setA, lookupA, h]
  | cons hd tl ih =>
    obtain ⟨k', v'⟩ := hd
    by_cases h' : k' = k₀
    · simp [setA, h', lookupA, h]
    · simp [setA, h', lookupA, ih]

theorem insertDesc_perm (x : String × ℚ) (l : List (String × ℚ)) :
    (insertDesc x l).Perm (x :: l) := by
  induction l with
  | nil => simp [insertDesc]
  | cons y ys ih =>
    by_cases h : y.2 ≤ x.2
    · simp [insertDesc, h]
    · simp only [insertDesc, h, if_neg, ite_false]
      exact (ih.cons y).trans (List.Perm.swap x y ys)

theorem mem_insertDesc {z x : String × ℚ} {l : List (String × ℚ)} :
    z ∈ insertDesc x l ↔ z = x ∨ z ∈ l := by
  rw [(insertDesc_perm x l).mem_iff, List.mem_cons]

theorem insertDesc_sorted (x : String × ℚ) {l : List (String × ℚ)}
    (hl : l.Sorted scoreGE) : (insertDesc x l).Sorted scoreGE := by
  induction l with
  | nil => simp [insertDesc, List.Sorted]
  | cons y ys ih =>
    rw [List.sorted_cons] at hl
    obtain ⟨hy, hys⟩ := hl
    by_cases h : y.2 ≤ x.2
    · rw [insertDesc, if_pos h, List.sorted_cons]
      refine ⟨?_, List.sorted_cons.mpr ⟨hy, hys⟩⟩
      intro z hz
      rcases List.mem_cons.mp hz with rfl | hz
      · exact h
      · exact le_trans (hy z hz) h
    · rw [insertDesc, if_neg h, List.sorted_cons]
      refine ⟨?_, ih hys⟩
      intro z hz
      rcases mem_insertDesc.mp hz with rfl | hz
      · exact le_of_lt (lt_of_not_le h)
      · exact hy z hz

theorem insertDesc_filter (x : String × ℚ) {l : List (String × ℚ)}
    (hl : l.Sorted scoreGE) (s : ℚ) :
    (insertDesc x l).filter (fun p => decide (p.2 = s)) =
      if x.2 = s then x :: l.filter (fun p => decide (p.2 = s))
      else l.filter (fun p => decide (p.2 = s)) := by
  induction l with
  | nil =>
    by_cases hx : x.2 = s <;> simp [insertDesc, List.filter, hx]
  | cons y ys ih =>
    rw [List.sorted_cons] at hl
    obtain ⟨hy, hys⟩ := hl
    by_cases h : y.2 ≤ x.2
    · rw [insertDesc, if_pos h]
      by_cases hx : x.2 = s <;> simp [List.filter, hx]
    · have hxy : x.2 < y.2 := lt_of_not_le h
      rw [insertDesc, if_neg h]
      by_cases hx : x.2 = s
      · have hyne : ¬ (y.2 = s) := by
          intro hc; rw [hc, ← hx] at hxy; exact lt_irrefl _ hxy
        simp [List.filter, hyne, hx, ih hys]
      · by_cases hy' : y.2 = s <;> simp [List.filter, hy', hx, ih hys]

theorem sortDesc_sorted (l : List (String × ℚ)) : (sortDesc l).Sorted scoreGE := by
  induction l with
  | nil => simp [sortDesc, List.Sorted]
  | cons x xs ih => exact insertDesc_sorted x ih

theorem sortDesc_perm (l : List (String × ℚ)) : (sortDesc l).Perm l := by
  induction l with
  | nil => simp [sortDesc]
  | cons x xs ih => exact (insertDesc_perm x (sortDesc xs)).trans (ih.cons x)

theorem sortDesc_filter (l : List (String × ℚ)) (s : ℚ) :
    (sortDesc l).filter (fun p => decide (p.2 = s)) =
      l.filter (fun p => decide (p.2 = s)) := by
  induction l with
  | nil => rfl
  | cons x xs ih =>
    rw [sortDesc, insertDesc_filter x (sortDesc_sorted xs) s]
    by_cases hx : x.2 = s <;> simp [List.filter, hx, ih]

theorem sortDesc_of_const (l : List (String × ℚ)) (h : ∀ p ∈ l, p.2 = 10) :
    sortDesc l = l := by
  induction l with
  | nil => rfl
  | cons x xs ih =>
    have hxs : sortDesc xs = xs := ih (fun p hp => h p (List.mem_cons_of_mem x hp))
    rw [sortDesc, hxs]
    cases xs with
    | nil => rfl
    | cons y ys =>
      have hx : x.2 = 10 := h x (List.mem_cons_self _ _)
      have hy : y.2 = 10 := h y (by simp)
      rw [insertDesc, if_pos (by rw [hx, hy])]

end P2P

namespace P2P

/-- C3: one reputation update replaces the stored score `s` by
`0.8*s + 0.2*D` (with `s = 10` and counter `0` when the peer has no row
yet) and increments the interaction counter by exactly one; applying
`CORRUPTED_DATA` (Δ = −5) once to a fresh peer yields score 7. -/
theorem update_reputation_formula (db : RepDb) (peer_id event : String) (D : Int)
    (hev : lookupA event REPUTATION_RULES = some D) :
    (lookupA peer_id (update_reputation db peer_id event) =
      some ((8/10 : ℚ) * ((lookupA peer_id db).getD (10, 0)).1 + (2/10 : ℚ) * (D : ℚ),
            ((lookupA peer_id db).getD (10, 0)).2 + 1)) ∧
    lookupA peer_id (update_reputation [] peer_id "CORRUPTED_DATA") = some (7, 1) := by
  constructor
  · simp only [update_reputation, hev]
    exact lookupA_setA_self _ _ _
  · have h5 : lookupA "CORRUPTED_DATA" REPUTATION_RULES = some (-5) := by decide
    simp only [update_reputation, h5, lookupA_nil, Option.getD_none]
    rw [lookupA_setA_self]
    norm_num [ALPHA, BETA, DEFAULT_REPUTATION]

/-- C3 witness: concrete run of the update rule: a fresh peer hit with
`CORRUPTED_DATA` ends with score 7 and one interaction. -/
theorem update_reputation_formula_witness :
    lookupA "peerA" (update_reputation [] "peerA" "CORRUPTED_DATA") =
      some ((8/10 : ℚ) * 10 + (2/10 : ℚ) * ((-5 : Int) : ℚ), 1) := by
  have h := update_reputation_formula [] "peerA" "CORRUPTED_DATA" (-5) (by decide)
  simpa using h.1

/-- C8: the reputation ordering pairs every input id with its current
score (default 10 for unknown ids), is a permutation of that pairing,
is sorted by score descending, keeps the input's relative order among
equal scores, and returns an all-default input in its original order. -/
theorem get_peers_sorted_spec (db : RepDb) (ids : List String) :
    (get_peers_sorted_by_reputation db ids).Perm
        (ids.map fun pid => (pid, get_reputation db pid)) ∧
    (get_peers_sorted_by_reputation db ids).Sorted scoreGE ∧
    (∀ s : ℚ, (get_peers_sorted_by_reputation db ids).filter (fun p => decide (p.2 = s)) =
        (ids.map fun pid => (pid, get_reputation db pid)).filter (fun p => decide (p.2 = s))) ∧
    ((∀ pid ∈ ids, get_reputation db pid = 10) →
        get_peers_sorted_by_reputation db ids = ids.map fun pid => (pid, 10)) := by
  refine ⟨sortDesc_perm _, sortDesc_sorted _, fun s => sortDesc_filter _ s, fun hall => ?_⟩
  unfold get_peers_sorted_by_reputation
  rw [sortDesc_of_const]
  · exact List.map_congr_left (fun pid hpid => by rw [hall pid hpid])
  · intro p hp
    obtain ⟨pid, hpid, rfl⟩ := List.mem_map.mp hp
    exact hall pid hpid

/-- C8 witness: on an empty database every id has the default score and
the ordering returns the input order unchanged. -/
theorem get_peers_sorted_spec_witness :
    get_peers_sorted_by_reputation [] ["pX", "pY", "pZ"] =
      [("pX", (10 : ℚ)), ("pY", 10), ("pZ", 10)] := by
  exact (get_peers_sorted_spec [] ["pX", "pY", "pZ"]).2.2.2 (fun pid _ => rfl)

/-- C6: for a tracked hash, `store_chunk` writes the chunk file `H.i`,
adds `i` to the bitmap, persists the metadata and returns `True`; when
the chunk-file write raises `IOError` it returns `False` and the whole
state — in particular the bitmap — is unchanged. -/
theorem store_chunk_spec (st : StorageState) (H : String) (i : Nat) (data : List Byte)
    (meta : FileMeta) (owned : Finset Nat)
    (hm : lookupA H st.file_metadata = some meta)
    (ht : lookupA H st.chunk_tracker = some owned) :
    (∃ st', store_chunk true st H i data = some (true, st') ∧
      st'.disk = st.disk ++ [(chunkFileName H i, data)] ∧
      lookupA H st'.chunk_tracker = some (insert i owned) ∧
      st'.saved = some (st'.file_metadata, st'.chunk_tracker, st'.file_locations) ∧
      st'.file_metadata = st.file_metadata) ∧
    store_chunk false st H i data = some (false, st) := by
  have hnone : (lookupA H st.file_metadata).isNone = false := by rw [hm]; rfl
  constructor
  · have heq : store_chunk true st H i data =
        some (true, save_metadata_internal
          { st with
            disk := st.disk ++ [(chunkFileName H i, data)],
            chunk_tracker := setA H (insert i owned) st.chunk_tracker }) := by
      simp only [store_chunk, hnone, Bool.false_eq_true, if_false, if_true, ht]
    exact ⟨_, heq, rfl, lookupA_setA_self _ _ _, rfl, rfl⟩
  · simp only [store_chunk, hnone, Bool.false_eq_true, if_false, if_true]

/-- C6 witness: storing chunk 2 of a concretely tracked download writes
the file, grows the bitmap and returns `True`, while a failing write
returns `False` and leaves the state untouched. -/
theorem store_chunk_spec_witness :
    (∃ st', store_chunk true
        ⟨[("h1", ⟨"f.txt", 100, "h1", 3, ["c0", "c1", "c2"]⟩)], [("h1", {0})], [], [], none⟩
        "h1" 2 [65, 66] = some (true, st') ∧
      st'.disk = [(chunkFileName "h1" 2, [65, 66])] ∧
      lookupA "h1" st'.chunk_tracker = some (insert 2 {0}) ∧
      st'.saved = some (st'.file_metadata, st'.chunk_tracker, st'.file_locations) ∧
      st'.file_metadata = [("h1", ⟨"f.txt", 100, "h1", 3, ["c0", "c1", "c2"]⟩)]) ∧
    store_chunk false
        ⟨[("h1", ⟨"f.txt", 100, "h1", 3, ["c0", "c1", "c2"]⟩)], [("h1", {0})], [], [], none⟩
        "h1" 2 [65, 66] =
      some (false,
        ⟨[("h1", ⟨"f.txt", 100, "h1", 3, ["c0", "c1", "c2"]⟩)], [("h1", {0})], [], [], none⟩) := by
  exact store_chunk_spec _ "h1" 2 [65, 66] _ {0} (by rfl) (by rfl)

/-- C10: for an untracked hash the missing-chunk set is empty while
`is_download_complete` is `False`, so "missing empty" does not imply
completeness at the public interface; for tracked hashes the
equivalence "missing empty iff complete" does hold. -/
theorem missing_empty_vs_complete (st : StorageState) (H : String) :
    (lookupA H st.file_metadata = none →
      get_missing_chunks st H = ∅ ∧ is_download_complete st H = false) ∧
    (∀ meta, lookupA H st.file_metadata = some meta →
      (get_missing_chunks st H = ∅ ↔ is_download_complete st H = true)) := by
  constructor
  · intro h
    simp [get_missing_chunks, is_download_complete, h]
  · intro meta h
    simp [get_missing_chunks, is_download_complete, h]

/-- C10 witness: an empty store reports an empty missing set and an
incomplete download for the same (untracked) hash. -/
theorem missing_empty_vs_complete_witness :
    get_missing_chunks ⟨[], [], [], [], none⟩ "h9" = ∅ ∧
    is_download_complete ⟨[], [], [], [], none⟩ "h9" = false :=
  (missing_empty_vs_complete ⟨[], [], [], [], none⟩ "h9").1 rfl

theorem chunksOf_nil (c : Nat) : chunksOf c [] = [] := by
  cases c <;> simp [chunksOf]

theorem chunksOf_cons (c : Nat) (x : Byte) (xs : List Byte) :
    chunksOf (c + 1) (x :: xs) = ((x :: xs).take (c + 1)) :: chunksOf (c + 1) (xs.drop c) := by
  simp [chunksOf]

theorem chunksOf_eq_nil_iff (c : Nat) (l : List Byte) :
    chunksOf (c + 1) l = [] ↔ l = [] := by
  cases l with
  | nil => simp [chunksOf_nil]
  | cons x xs => simp [chunksOf_cons]

theorem chunksOf_length_aux (c : Nat) :
    ∀ (n : Nat) (l : List Byte), l.length ≤ n →
      (chunksOf (c + 1) l).length = (l.length + c) / (c + 1) := by
  intro n
  induction n with
  | zero =>
    intro l hl
    have hnil : l = [] := List.eq_nil_of_length_eq_zero (Nat.le_zero.mp hl)
    subst hnil
    simp [chunksOf_nil, Nat.div_eq_of_lt (Nat.lt_succ_self c)]
  | succ n ih =>
    intro l hl
    cases l with
    | nil => simp [chunksOf_nil, Nat.div_eq_of_lt (Nat.lt_succ_self c)]
    | cons x xs =>
      have hxs : xs.length ≤ n := by
        simp only [List.length_cons] at hl
        omega
      have hdrop : (xs.drop c).length ≤ n := by
        simp only [List.length_drop]
        omega
      rw [chunksOf_cons, List.length_cons, ih (xs.drop c) hdrop]
      simp only [List.length_drop, List.length_cons]
      rcases le_or_lt xs.length c with hle | hlt
      · have h0 : xs.length - c = 0 := by omega
        rw [h0, Nat.zero_add, Nat.div_eq_of_lt (Nat.lt_succ_self c)]
        have h1 : (xs.length + 1 + c) / (c + 1) = 1 := by
          apply Nat.div_eq_of_lt_le <;> omega
        omega
      · have h1 : xs.length - c + c = xs.length := by omega
        have h2 : xs.length + 1 + c = xs.length + (c + 1) := by omega
        rw [h1, h2, Nat.add_div_right _ (Nat.succ_pos c)]

theorem chunksOf_length (c : Nat) (hc : 0 < c) (l : List Byte) :
    (chunksOf c l).length = (l.length + c - 1) / c := by
  obtain ⟨c', rfl⟩ : ∃ c'', c = c'' + 1 := ⟨c - 1, by omega⟩
  rw [chunksOf_length_aux c' l.length l (le_refl _)]
  have h2 : l.length + (c' + 1) - 1 = l.length + c' := by omega
  rw [h2]

theorem chunksOf_get_aux (c : Nat) :
    ∀ (n : Nat) (l : List Byte), l.length ≤ n →
      ∀ i (h : i < (chunksOf (c + 1) l).length), i + 1 < (chunksOf (c + 1) l).length →
        ((chunksOf (c + 1) l).get ⟨i, h⟩).length = c + 1 := by
  intro n
  induction n with
  | zero =>
    intro l hl i h _
    have hnil : l = [] := List.eq_nil_of_length_eq_zero (Nat.le_zero.mp hl)
    subst hnil
    rw [chunksOf_nil (c + 1)] at h
    exact absurd h (by simp)
  | succ n ih =>
    intro l hl i h hlast
    cases l with
    | nil =>
      rw [chunksOf_nil (c + 1)] at h
      exact absurd h (by simp)
    | cons x xs =>
      have hdrop : (xs.drop c).length ≤ n := by
        simp only [List.length_drop]
        simp only [List.length_cons] at hl
        omega
      revert h hlast
      rw [chunksOf_cons]
      intro h hlast
      cases i with
      | zero =>
        simp only [List.get]
        have htail : chunksOf (c + 1) (xs.drop c) ≠ [] := by
          intro hc0
          rw [hc0] at hlast
          simp at hlast
        have hxs : ¬ (xs.length ≤ c) := by
          intro hle
          exact htail ((chunksOf_eq_nil_iff c (xs.drop c)).mpr (List.drop_eq_nil_of_le hle))
        simp only [List.length_take, List.length_cons]
        omega
      | succ j =>
        simp only [List.length_cons] at h hlast
        simp only [List.get]
        exact ih (xs.drop c) hdrop j (by omega) (by omega)

theorem chunksOf_getLast_aux (c : Nat) :
    ∀ (n : Nat) (l : List Byte), l.length ≤ n →
      ∀ (h : chunksOf (c + 1) l ≠ []),
        ((chunksOf (c + 1) l).getLast h).length =
          l.length - ((chunksOf (c + 1) l).length - 1) * (c + 1) := by
  intro n
  induction n with
  | zero =>
    intro l hl h
    have hnil : l = [] := List.eq_nil_of_length_eq_zero (Nat.le_zero.mp hl)
    subst hnil
    exact absurd (chunksOf_nil (c + 1)) h
  | succ n ih =>
    intro l hl h
    cases l with
    | nil => exact absurd (chunksOf_nil (c + 1)) h
    | cons x xs =>
      have hdrop : (xs.drop c).length ≤ n := by
        simp only [List.length_drop]
        simp only [List.length_cons] at hl
        omega
      by_cases hT : chunksOf (c + 1) (xs.drop c) = []
      · have hxs : xs.length ≤ c := by
          have hd := (chunksOf_eq_nil_iff c (xs.drop c)).mp hT
          rw [List.drop_eq_nil_iff] at hd
          exact hd
        have hch : chunksOf (c + 1) (x :: xs) = [(x :: xs).take (c + 1)] := by
          rw [chunksOf_cons, hT]
        revert h
        rw [hch]
        intro h
        simp only [List.getLast_singleton]
        simp only [List.length_take, List.length_cons, List.length_nil]
        omega
      · have hch := chunksOf_cons c x xs
        revert h
        rw [hch]
        intro h
        rw [List.getLast_cons hT]
        have hrec := ih (xs.drop c) hdrop hT
        rw [hrec]
        simp only [List.length_drop, List.length_cons]
        have hTL : 1 ≤ (chunksOf (c + 1) (xs.drop c)).length :=
          Nat.one_le_iff_ne_zero.mpr (fun h0 => hT (List.eq_nil_of_length_eq_zero h0))
        revert hTL
        generalize (chunksOf (c + 1) (xs.drop c)).length = TL
        intro hTL
        obtain ⟨t, rfl⟩ : ∃ t, TL = t + 1 := ⟨TL - 1, by omega⟩
        rw [Nat.add_sub_cancel, Nat.add_sub_cancel, Nat.succ_mul]
        omega

/-- C9: sharing a readable file of `s` bytes with positive chunk size `c`
produces `chunk_count = ⌈s/c⌉`, a `chunk_hashes` list of exactly
`chunk_count` digests, full chunks of size `c` everywhere except
possibly the last, and a last chunk of size `s − (chunk_count − 1)·c`. -/
theorem get_file_metadata_spec (hashFn : List Byte → String) (fname : String)
    (content : List Byte) (c : Nat) (hc : 0 < c) :
    (get_file_metadata hashFn fname content c).chunk_count =
      (content.length + c - 1) / c ∧
    (get_file_metadata hashFn fname content c).chunk_hashes.length =
      (get_file_metadata hashFn fname content c).chunk_count ∧
    (∀ i (h : i < (chunksOf c content).length), i + 1 < (chunksOf c content).length →
      ((chunksOf c content).get ⟨i, h⟩).length = c) ∧
    (∀ h : chunksOf c content ≠ [],
      ((chunksOf c content).getLast h).length =
        content.length -
          ((get_file_metadata hashFn fname content c).chunk_count - 1) * c) := by
  obtain ⟨c', rfl⟩ : ∃ c'', c = c'' + 1 := ⟨c - 1, by omega⟩
  refine ⟨chunksOf_length _ hc content, ?_, ?_, ?_⟩
  · simp [get_file_metadata]
  · intro i h hlast
    exact chunksOf_get_aux c' content.length content (le_refl _) i h hlast
  · intro h
    exact chunksOf_getLast_aux c' content.length content (le_refl _) h

/-- C9 witness: a 5-byte file with chunk size 2 yields 3 chunks and
3 digests. -/
theorem get_file_metadata_spec_witness :
    (get_file_metadata (fun _ => "d") "f" [1, 2, 3, 4, 5] 2).chunk_count = 3 ∧
    (get_file_metadata (fun _ => "d") "f" [1, 2, 3, 4, 5] 2).chunk_hashes.length = 3 := by
  have h := get_file_metadata_spec (fun _ => "d") "f" [1, 2, 3, 4, 5] 2 (by decide)
  constructor
  · rw [h.1]
    decide
  · rw [h.2.1, h.1]
    decide

/-- C2 counterexample: with file `h1` indexed and its peer `p1`
registered, `query_file` does answer `status = "success"`, but the reply
carries no `chunk_hashes` field (the tracker never stores the per-chunk
digest list it receives), contradicting the claimed reply shape. -/
theorem query_file_reply_lacks_chunk_hashes :
    lookupA "status" (handle_query_file
        (handle_register ⟨[], []⟩ "p1" 7000 "127.0.0.1" [⟨"f.txt", 100, "h1", 1, ["c0"]⟩])
        "h1") = some (JVal.jstr "success") ∧
    lookupA "chunk_hashes" (handle_query_file
        (handle_register ⟨[], []⟩ "p1" 7000 "127.0.0.1" [⟨"f.txt", 100, "h1", 1, ["c0"]⟩])
        "h1") = none := by
  decide

/-- C2 (amended): for a hash in the index with at least one registered
peer, `query_file` replies `status = "success"` with `file_name`,
`file_size`, `chunk_count` and a non-empty `peers` list — but no
`chunk_hashes` field; for a hash not in the index it replies
`status = "error"` with message "File not found". -/
theorem handle_query_file_spec (st : TrackerState) (h : String) :
    (∀ info, lookupA h st.file_index = some info →
      (∃ pid ∈ info.peers, (lookupA pid st.peer_registry).isSome = true) →
      lookupA "status" (handle_query_file st h) = some (JVal.jstr "success") ∧
      lookupA "file_name" (handle_query_file st h) = some (JVal.jstr info.name) ∧
      lookupA "file_size" (handle_query_file st h) = some (JVal.jnum info.size) ∧
      lookupA "chunk_count" (handle_query_file st h) = some (JVal.jnum info.chunk_count) ∧
      (∃ ps, lookupA "peers" (handle_query_file st h) = some (JVal.jpeers ps) ∧ ps ≠ []) ∧
      lookupA "chunk_hashes" (handle_query_file st h) = none) ∧
    (lookupA h st.file_index = none →
      handle_query_file st h =
        [("status", JVal.jstr "error"), ("message", JVal.jstr "File not found")]) := by
  constructor
  · rintro info hinfo ⟨pid, hpid, hreg⟩
    have hfound : foundPeers st info.peers ≠ [] := by
      intro hnil
      have hall := List.filterMap_eq_nil_iff.mp hnil pid hpid
      rw [Option.map_eq_none'] at hall
      rw [hall] at hreg
      exact Bool.noConfusion hreg
    unfold handle_query_file
    rw [hinfo]
    dsimp only
    cases hfp : foundPeers st info.peers with
    | nil => exact absurd hfp hfound
    | cons a as =>
      refine ⟨by simp [lookupA], by simp [lookupA], by simp [lookupA], by simp [lookupA],
        ⟨a :: as, by simp [lookupA], by simp⟩, by simp [lookupA]⟩
  · intro hnone
    unfold handle_query_file
    rw [hnone]

/-- C2 witness: concrete success and miss replies of the amended
statement. -/
theorem handle_query_file_spec_witness :
    lookupA "file_name" (handle_query_file
        ⟨[("h1", ⟨"f.txt", 100, 1, ["p1"]⟩)], [("p1", ("127.0.0.1", 7000))]⟩ "h1") =
      some (JVal.jstr "f.txt") ∧
    lookupA "chunk_hashes" (handle_query_file
        ⟨[("h1", ⟨"f.txt", 100, 1, ["p1"]⟩)], [("p1", ("127.0.0.1", 7000))]⟩ "h1") = none ∧
    handle_query_file
        ⟨[("h1", ⟨"f.txt", 100, 1, ["p1"]⟩)], [("p1", ("127.0.0.1", 7000))]⟩ "hX" =
      [("status", JVal.jstr "error"), ("message", JVal.jstr "File not found")] := by
  have h := handle_query_file_spec
    ⟨[("h1", ⟨"f.txt", 100, 1, ["p1"]⟩)], [("p1", ("127.0.0.1", 7000))]⟩ "h1"
  have hs := h.1 ⟨"f.txt", 100, 1, ["p1"]⟩ (by decide) ⟨"p1", by decide, by decide⟩
  refine ⟨hs.2.1, hs.2.2.2.2.2, ?_⟩
  exact (handle_query_file_spec
    ⟨[("h1", ⟨"f.txt", 100, 1, ["p1"]⟩)], [("p1", ("127.0.0.1", 7000))]⟩ "hX").2 (by decide)

theorem lookupA_mem {β : Type} {k : String} {v : β} {l : List (String × β)}
    (h : lookupA k l = some v) : (k, v) ∈ l := by
  induction l with
  | nil => exact absurd h (by simp)
  | cons hd tl ih =>
    obtain ⟨k', v'⟩ := hd
    rw [lookupA_cons] at h
    by_cases hk : k' = k
    · rw [if_pos hk] at h
      obtain rfl := hk
      obtain rfl : v' = v := by injection h
      exact List.mem_cons_self _ _
    · rw [if_neg hk] at h
      exact List.mem_cons_of_mem _ (ih h)

theorem mem_setA {β : Type} {p : String × β} {k : String} {v : β} {l : List (String × β)}
    (h : p ∈ setA k v l) : p = (k, v) ∨ p ∈ l := by
  induction l with
  | nil => simpa [setA] using h
  | cons hd tl ih =>
    obtain ⟨k', v'⟩ := hd
    by_cases hk : k' = k
    · rw [setA, if_pos hk] at h
      rcases List.mem_cons.mp h with rfl | hmem
      · exact Or.inl rfl
      · exact Or.inr (List.mem_cons_of_mem _ hmem)
    · rw [setA, if_neg hk] at h
      rcases List.mem_cons.mp h with rfl | hmem
      · exact Or.inr (List.mem_cons_self _ _)
      · rcases ih hmem with hl | hr
        · exact Or.inl hl
        · exact Or.inr (List.mem_cons_of_mem _ hr)

theorem mem_keys_setA {β : Type} {a k : String} {v : β} {l : List (String × β)}
    (h : a ∈ (setA k v l).map Prod.fst) : a = k ∨ a ∈ l.map Prod.fst := by
  obtain ⟨p, hp, rfl⟩ := List.mem_map.mp h
  rcases mem_setA hp with rfl | hmem
  · exact Or.inl rfl
  · exact Or.inr (List.mem_map_of_mem _ hmem)

theorem keys_setA_nodup {β : Type} (k : String) (v : β) {l : List (String × β)}
    (h : (l.map Prod.fst).Nodup) : ((setA k v l).map Prod.fst).Nodup := by
  induction l with
  | nil => simp [setA]
  | cons hd tl ih =>
    obtain ⟨k', v'⟩ := hd
    rw [List.map_cons, List.nodup_cons] at h
    by_cases hk : k' = k
    · rw [setA, if_pos hk, List.map_cons, List.nodup_cons]
      obtain rfl := hk
      exact h
    · rw [setA, if_neg hk, List.map_cons, List.nodup_cons]
      refine ⟨fun hmem => ?_, ih h.2⟩
      rcases mem_keys_setA hmem with rfl | hr
      · exact hk rfl
      · exact h.1 hr

theorem eraseA_sublist {β : Type} (k : String) (l : List (String × β)) :
    (eraseA k l).Sublist l := by
  induction l with
  | nil => simp [eraseA]
  | cons hd tl ih =>
    obtain ⟨k', v'⟩ := hd
    by_cases hk : k' = k
    · rw [eraseA, if_pos hk]
      exact List.sublist_cons_self _ _
    · rw [eraseA, if_neg hk]
      exact ih.cons₂ _

theorem lookupA_eq_none_of_not_mem {β : Type} {k : String} {l : List (String × β)}
    (h : k ∉ l.map Prod.fst) : lookupA k l = none := by
  induction l with
  | nil => rfl
  | cons hd tl ih =>
    obtain ⟨k', v'⟩ := hd
    rw [List.map_cons, List.mem_cons] at h
    push_neg at h
    rw [lookupA_cons, if_neg (fun hk => h.1 hk.symm)]
    exact ih h.2

theorem lookupA_eraseA_self {β : Type} {k : String} {l : List (String × β)}
    (h : (l.map Prod.fst).Nodup) : lookupA k (eraseA k l) = none := by
  induction l with
  | nil => rfl
  | cons hd tl ih =>
    obtain ⟨k', v'⟩ := hd
    rw [List.map_cons, List.nodup_cons] at h
    by_cases hk : k' = k
    · rw [eraseA, if_pos hk]
      obtain rfl := hk
      exact lookupA_eq_none_of_not_mem h.1
    · rw [eraseA, if_neg hk, lookupA_cons, if_neg hk]
      exact ih h.2

theorem lookupA_eraseA_ne {β : Type} {k q : String} (hq : q ≠ k) (l : List (String × β)) :
    lookupA q (eraseA k l) = lookupA q l := by
  induction l with
  | nil => rfl
  | cons hd tl ih =>
    obtain ⟨k', v'⟩ := hd
    by_cases hk : k' = k
    · rw [eraseA, if_pos hk, lookupA_cons, if_neg (by rw [hk]; exact fun h => hq h.symm)]
    · rw [eraseA, if_neg hk, lookupA_cons, lookupA_cons, ih]

theorem mem_addPeer {q pid : String} {l : List String} (h : q ∈ addPeer pid l) :
    q = pid ∨ q ∈ l := by
  unfold addPeer at h
  by_cases hmem : pid ∈ l
  · rw [if_pos hmem] at h
    exact Or.inr h
  · rw [if_neg hmem] at h
    rcases List.mem_append.mp h with hl | hr
    · exact Or.inr hl
    · exact Or.inl (List.mem_singleton.mp hr)

theorem addPeer_nodup {pid : String} {l : List String} (h : l.Nodup) :
    (addPeer pid l).Nodup := by
  unfold addPeer
  by_cases hmem : pid ∈ l
  · rw [if_pos hmem]
    exact h
  · rw [if_neg hmem]
    refine List.Nodup.append h (List.nodup_singleton pid) ?_
    intro a ha hb
    rw [List.mem_singleton] at hb
    exact hmem (hb ▸ ha)

theorem trackerInv_register (st : TrackerState) (pid : String) (port : Nat)
    (ip : String) (files : List FileMeta) (h : TrackerInv st) :
    TrackerInv (handle_register st pid port ip files) := by
  obtain ⟨hreg, hnd, hpeers⟩ := h
  have key : ∀ (fs : List FileMeta) (idx : List (String × TrackerEntry)),
      (∀ p ∈ idx, p.2.peers.Nodup ∧
        ∀ q ∈ p.2.peers, q = pid ∨ (lookupA q st.peer_registry).isSome = true) →
      ∀ p ∈ fs.foldl (registerFileOne pid) idx, p.2.peers.Nodup ∧
        ∀ q ∈ p.2.peers, q = pid ∨ (lookupA q st.peer_registry).isSome = true := by
    intro fs
    induction fs with
    | nil => intro idx hQ; exact hQ
    | cons fi fs ih =>
      intro idx hQ
      rw [List.foldl_cons]
      refine ih _ ?_
      intro p hp
      rcases mem_setA hp with rfl | hmem
      · dsimp only
        cases he : lookupA fi.hash idx with
        | none =>
          simp only [registerFileOne, he] at hp ⊢
          constructor
          · exact addPeer_nodup List.nodup_nil
          · intro q hq
            rcases mem_addPeer hq with rfl | habs
            · exact Or.inl rfl
            · exact absurd habs (by simp)
        | some e =>
          have hent := hQ (fi.hash, e) (lookupA_mem he)
          simp only [registerFileOne, he]
          constructor
          · exact addPeer_nodup hent.1
          · intro q hq
            rcases mem_addPeer hq with rfl | hmem'
            · exact Or.inl rfl
            · exact hent.2 q hmem'
      · exact hQ p hmem
  have hfold := key files st.file_index
    (fun p hp => ⟨hnd p hp, fun q hq => Or.inr (hpeers p hp q hq)⟩)
  refine ⟨keys_setA_nodup pid (ip, port) hreg, fun p hp => (hfold p hp).1, ?_⟩
  intro p hp q hq
  simp only [handle_register] at hp ⊢
  rcases (hfold p hp).2 q hq with rfl | hsome
  · rw [lookupA_setA_self]
    rfl
  · by_cases hqp : q = pid
    · obtain rfl := hqp
      rw [lookupA_setA_self]
      rfl
    · rw [lookupA_setA_ne _ _ _ _ (fun hh => hqp hh.symm)]
      exact hsome

theorem trackerInv_deregister (st : TrackerState) (pid : String) (h : TrackerInv st) :
    TrackerInv (handle_deregister st pid) := by
  obtain ⟨hreg, hnd, hpeers⟩ := h
  refine ⟨((eraseA_sublist pid st.peer_registry).map Prod.fst).nodup hreg, ?_, ?_⟩
  · intro p hp
    rw [handle_deregister] at hp
    obtain ⟨hp', _⟩ := List.mem_filter.mp hp
    obtain ⟨p₀, hp₀, rfl⟩ := List.mem_map.mp hp'
    exact (hnd p₀ hp₀).erase pid
  · intro p hp q hq
    rw [handle_deregister] at hp
    obtain ⟨hp', _⟩ := List.mem_filter.mp hp
    obtain ⟨p₀, hp₀, rfl⟩ := List.mem_map.mp hp'
    have hq' := (hnd p₀ hp₀).mem_erase_iff.mp hq
    rw [handle_deregister]
    dsimp only
    rw [lookupA_eraseA_ne hq'.1 st.peer_registry]
    exact hpeers p₀ hp₀ q hq'.2

theorem trackerInv_run (ops : List TrackerOp) : TrackerInv (trackerRun ops) := by
  have key : ∀ (os : List TrackerOp) (st : TrackerState), TrackerInv st →
      TrackerInv (os.foldl trackerStep st) := by
    intro os
    induction os with
    | nil => intro st h; exact h
    | cons o os ih =>
      intro st h
      rw [List.foldl_cons]
      refine ih _ ?_
      cases o with
      | reg pid port ip files => exact trackerInv_register st pid port ip files h
      | dereg pid => exact trackerInv_deregister st pid h
  exact key ops ⟨[], []⟩ ⟨List.nodup_nil, by simp, by simp⟩

/-- C7: after `deregister(id)` on any reachable tracker state, the id is
in neither the peer registry nor any index entry's peer set, every
remaining entry has a non-empty peer set, and (reachability invariant)
any peer id appearing in some entry's peer set is in the registry. -/
theorem deregister_spec (ops : List TrackerOp) (pid : String) :
    lookupA pid (handle_deregister (trackerRun ops) pid).peer_registry = none ∧
    (∀ p ∈ (handle_deregister (trackerRun ops) pid).file_index,
      pid ∉ p.2.peers ∧ p.2.peers ≠ []) ∧
    (∀ p ∈ (trackerRun ops).file_index, ∀ q ∈ p.2.peers,
      (lookupA q (trackerRun ops).peer_registry).isSome = true) := by
  obtain ⟨hreg, hnd, hpeers⟩ := trackerInv_run ops
  refine ⟨lookupA_eraseA_self hreg, ?_, hpeers⟩
  intro p hp
  rw [handle_deregister] at hp
  obtain ⟨hp', hne⟩ := List.mem_filter.mp hp
  obtain ⟨p₀, hp₀, rfl⟩ := List.mem_map.mp hp'
  constructor
  · intro hmem
    exact ((hnd p₀ hp₀).mem_erase_iff.mp hmem).1 rfl
  · intro hnil
    rw [hnil] at hne
    simp at hne

/-- C7 witness: two peers register the same file; deregistering the
first removes it from the registry while the entry survives with the
second peer only, and deregistering both prunes the entry. -/
theorem deregister_spec_witness :
    lookupA "p1" (handle_deregister (trackerRun
      [TrackerOp.reg "p1" 7000 "127.0.0.1" [⟨"f.txt", 100, "h1", 1, ["c0"]⟩],
       TrackerOp.reg "p2" 7001 "127.0.0.1" [⟨"f.txt", 100, "h1", 1, ["c0"]⟩]])
      "p1").peer_registry = none ∧
    (handle_deregister (trackerRun
      [TrackerOp.reg "p1" 7000 "127.0.0.1" [⟨"f.txt", 100, "h1", 1, ["c0"]⟩],
       TrackerOp.reg "p2" 7001 "127.0.0.1" [⟨"f.txt", 100, "h1", 1, ["c0"]⟩]])
      "p1").file_index = [("h1", ⟨"f.txt", 100, 1, ["p2"]⟩)] := by
  refine ⟨(deregister_spec
    [TrackerOp.reg "p1" 7000 "127.0.0.1" [⟨"f.txt", 100, "h1", 1, ["c0"]⟩],
     TrackerOp.reg "p2" 7001 "127.0.0.1" [⟨"f.txt", 100, "h1", 1, ["c0"]⟩]] "p1").1, ?_⟩
  decide

theorem scanObj_replicate_inStr (m pos depth : Nat) :
    scanObj (List.replicate m 97) pos depth true = none := by
  induction m generalizing pos with
  | zero => simp [scanObj]
  | succ m ih =>
    rw [List.replicate_succ, scanObj]
    simp only [if_true, if_neg (by decide : ¬ (97 = 34))]
    exact ih (pos + 1)

theorem scanObj_replicate_then (m pos depth : Nat) (rest : List Byte) :
    scanObj (List.replicate m 97 ++ rest) pos depth true =
      scanObj rest (pos + m) depth true := by
  induction m generalizing pos with
  | zero => simp
  | succ m ih =>
    rw [List.replicate_succ, List.cons_append, scanObj]
    simp only [if_true, if_neg (by decide : ¬ (97 = 34))]
    rw [ih (pos + 1)]
    have harith : pos + 1 + m = pos + (m + 1) := by omega
    rw [harith]

theorem raw_decode_open_string (m : Nat) :
    raw_decode ([123, 34, 115, 34, 58, 34] ++ List.replicate m 97) = none := by
  show scanObj (123 :: 34 :: 115 :: 34 :: 58 :: 34 :: List.replicate m 97) 0 0 false = none
  simp [scanObj, scanObj_replicate_inStr]

theorem raw_decode_closed_string (m : Nat) :
    raw_decode ([123, 34, 115, 34, 58, 34] ++ (List.replicate m 97 ++ [34, 125])) =
      some (m + 8) := by
  show scanObj
    (123 :: 34 :: 115 :: 34 :: 58 :: 34 :: (List.replicate m 97 ++ [34, 125])) 0 0 false =
    some (m + 8)
  simp [scanObj, scanObj_replicate_then]
  omega

theorem raw_decode_nil : raw_decode [] = none := rfl

theorem recvHeader_step (buf blk : List Byte) (rest : List (List Byte))
    (hd : raw_decode buf = none) :
    recvHeader buf (blk :: rest) = recvHeader (buf ++ blk) rest := by
  rw [recvHeader, hd]

theorem recvHeader_last (buf : List Byte) (stream : List (List Byte)) (idx : Nat)
    (hd : raw_decode buf = some idx) :
    recvHeader buf stream = some (idx, buf) := by
  cases stream with
  | nil => rw [recvHeader, hd]
  | cons blk rest => rw [recvHeader, hd]

theorem recvHeader_through_reps (j m : Nat) (rest : List (List Byte)) :
    recvHeader ([123, 34, 115, 34, 58, 34] ++ List.replicate m 97)
        (List.replicate j (List.replicate 128 97) ++ rest) =
      recvHeader ([123, 34, 115, 34, 58, 34] ++ List.replicate (m + 128 * j) 97) rest := by
  induction j generalizing m with
  | zero => simp
  | succ j ih =>
    rw [List.replicate_succ,
      List.cons_append (List.replicate 128 97) (List.replicate j (List.replicate 128 97)) rest,
      recvHeader_step _ _ _ (raw_decode_open_string m), List.append_assoc,
      ← List.replicate_add, ih (m + 128)]
    have harith : m + 128 + 128 * j = m + 128 * (j + 1) := by ring
    rw [harith]

/-- C4 counterexample: a syntactically valid 2176-byte header, delivered
in 128-byte `recv` blocks, is accepted by the header loop after
consuming 2176 > 2048 bytes — no "invalid header" abort happens; and
when the stream stops after the first 2048 bytes (16 blocks, still
mid-string) the loop keeps reading through all 2048 bytes and returns
`none` only for the disconnect, never for an oversized header. -/
theorem recvHeader_counterexample :
    (recvHeader []
        (([123, 34, 115, 34, 58, 34] ++ List.replicate 122 97) ::
          (List.replicate 15 (List.replicate 128 97) ++
            [List.replicate 126 97 ++ [34, 125]]))).map
      (fun pr => (pr.1, pr.2.length)) = some (2176, 2176) ∧
    2048 < 2176 ∧
    recvHeader []
        (([123, 34, 115, 34, 58, 34] ++ List.replicate 122 97) ::
          List.replicate 15 (List.replicate 128 97)) = none := by
  refine ⟨?_, by norm_num, ?_⟩
  · rw [recvHeader_step _ _ _ raw_decode_nil, List.nil_append, recvHeader_through_reps,
      recvHeader_step _ _ _ (raw_decode_open_string _), List.append_assoc,
      ← List.append_assoc (List.replicate (122 + 128 * 15) 97)]
    rw [← List.replicate_add]
    have h1 : 122 + 128 * 15 + 126 = 2168 := by norm_num
    rw [h1, recvHeader_last _ _ _ (raw_decode_closed_string 2168)]
    simp only [Option.map_some', List.length_append, List.length_replicate, List.length_cons,
      List.length_nil]
  · have hmid : List.replicate 15 (List.replicate (128 : Nat) (97 : Byte)) =
        List.replicate 15 (List.replicate 128 97) ++ ([] : List (List Byte)) := by simp
    rw [recvHeader_step _ _ _ raw_decode_nil, List.nil_append, hmid, recvHeader_through_reps]
    rw [recvHeader, raw_decode_open_string]

/-- C4 (amended): the header loop applies no 2 KiB bound — it returns
`none` exactly when the peer disconnects before any accumulated buffer
prefix parses, and on success it returns the parsed header boundary for
the first buffer that parses, however large it has grown. -/
theorem recvHeader_no_size_cap (buf : List Byte) (stream : List (List Byte)) :
    (recvHeader buf stream = none ↔
      ∀ k, k ≤ stream.length → raw_decode (buf ++ (stream.take k).flatten) = none) ∧
    (∀ idx fullbuf, recvHeader buf stream = some (idx, fullbuf) →
      ∃ k, k ≤ stream.length ∧ fullbuf = buf ++ (stream.take k).flatten ∧
        raw_decode fullbuf = some idx) := by
  induction stream generalizing buf with
  | nil =>
    rw [recvHeader]
    cases hd : raw_decode buf with
    | none =>
      constructor
      · constructor
        · intro _ k hk
          obtain rfl : k = 0 := Nat.le_zero.mp hk
          simpa using hd
        · intro _
          rfl
      · intro idx fullbuf h
        exact absurd h (by simp)
    | some idx =>
      constructor
      · constructor
        · intro h
          exact absurd h (by simp)
        · intro hall
          have h0 := hall 0 (le_refl 0)
          simp only [List.take_zero, List.flatten_nil, List.append_nil] at h0
          rw [hd] at h0
          exact Option.noConfusion h0
      · intro idx' fullbuf h
        have h' := Option.some.inj h
        obtain rfl : idx' = idx := (congrArg Prod.fst h').symm
        obtain rfl : fullbuf = buf := (congrArg Prod.snd h').symm
        exact ⟨0, le_refl 0, by simp, hd⟩
  | cons blk rest ih =>
    rw [recvHeader]
    cases hd : raw_decode buf with
    | some idx =>
      constructor
      · constructor
        · intro h
          exact absurd h (by simp)
        · intro hall
          have h0 := hall 0 (by simp)
          simp only [List.take_zero, List.flatten_nil, List.append_nil] at h0
          rw [hd] at h0
          exact Option.noConfusion h0
      · intro idx' fullbuf h
        have h' := Option.some.inj h
        obtain rfl : idx' = idx := (congrArg Prod.fst h').symm
        obtain rfl : fullbuf = buf := (congrArg Prod.snd h').symm
        exact ⟨0, by simp, by simp, hd⟩
    | none =>
      constructor
      · rw [(ih (buf ++ blk)).1]
        constructor
        · intro hall k hk
          cases k with
          | zero => simpa using hd
          | succ j =>
            rw [List.take_succ_cons, List.flatten_cons, ← List.append_assoc]
            exact hall j (by simp only [List.length_cons] at hk; omega)
        · intro hall k hk
          have hs := hall (k + 1) (by simp only [List.length_cons]; omega)
          rw [List.take_succ_cons, List.flatten_cons, ← List.append_assoc] at hs
          exact hs
      · intro idx fullbuf h
        obtain ⟨k, hk, hfb, hparse⟩ := (ih (buf ++ blk)).2 idx fullbuf h
        refine ⟨k + 1, by simp only [List.length_cons]; omega, ?_, hparse⟩
        rw [hfb, List.take_succ_cons, List.flatten_cons, ← List.append_assoc]

/-- C4 witness: a header that arrives as the single block `"{}"` parses
at once: the loop succeeds with no disconnect and the accumulated buffer
is the first block. -/
theorem recvHeader_no_size_cap_witness :
    ∃ k, k ≤ 1 ∧ ([123, 125] : List Byte) = [] ++ (([[123, 125]] : List (List Byte)).take k).flatten ∧
      raw_decode [123, 125] = some 2 :=
  (recvHeader_no_size_cap [] [[123, 125]]).2 2 [123, 125] (by decide)

theorem store_chunk_true_eq (st : StorageState) (H : String) (i : Nat) (data : List Byte)
    (meta : FileMeta) (owned : Finset Nat)
    (hm : lookupA H st.file_metadata = some meta)
    (ht : lookupA H st.chunk_tracker = some owned) :
    store_chunk true st H i data =
      some (true, save_metadata_internal
        { st with
          disk := st.disk ++ [(chunkFileName H i, data)],
          chunk_tracker := setA H (insert i owned) st.chunk_tracker }) := by
  have hnone : (lookupA H st.file_metadata).isNone = false := by rw [hm]; rfl
  simp only [store_chunk, hnone, Bool.false_eq_true, if_false, if_true, ht]

theorem tryPeers_all_fail (fetch : Addr → Nat → FetchResult) (map : List (String × Addr))
    (H : String) (i : Nat) :
    ∀ (addrs : List Addr) (st : StorageState) (db : RepDb) (prev : Option (List Byte)),
      pythonTruthy prev = false →
      (∀ addr ∈ addrs, ∀ data, fetch addr i = .ok data → data = []) →
      ∃ db' cd, tryPeers fetch map H i addrs st db prev = (st, db', cd) ∧
        pythonTruthy cd = false := by
  intro addrs
  induction addrs with
  | nil =>
    intro st db prev hprev _
    exact ⟨db, prev, rfl, hprev⟩
  | cons addr rest ih =>
    intro st db prev hprev hfail
    have hrest : ∀ a ∈ rest, ∀ data, fetch a i = .ok data → data = [] :=
      fun a ha => hfail a (List.mem_cons_of_mem _ ha)
    rw [tryPeers]
    cases hf : fetch addr i with
    | exn => exact ih st _ prev hprev hrest
    | failed => exact ih st _ none rfl hrest
    | ok data =>
      have hdata : data = [] := hfail addr (List.mem_cons_self _ _) data hf
      subst hdata
      exact ih st _ (some []) rfl hrest

theorem tryPeers_succeeds (fetch : Addr → Nat → FetchResult) (map : List (String × Addr))
    (H : String) (i : Nat) :
    ∀ (addrs : List Addr) (st : StorageState) (db : RepDb) (prev : Option (List Byte))
      (meta : FileMeta) (owned : Finset Nat),
      lookupA H st.file_metadata = some meta →
      lookupA H st.chunk_tracker = some owned →
      (∃ addr ∈ addrs, ∃ data, fetch addr i = .ok data ∧ data ≠ []) →
      ∃ st' db' data, tryPeers fetch map H i addrs st db prev = (st', db', some data) ∧
        data ≠ [] ∧ st'.file_metadata = st.file_metadata ∧
        lookupA H st'.chunk_tracker = some (insert i owned) := by
  intro addrs
  induction addrs with
  | nil =>
    intro st db prev meta owned _ _ hacc
    obtain ⟨addr, haddr, _⟩ := hacc
    exact absurd haddr (by simp)
  | cons addr rest ih =>
    intro st db prev meta owned hm ht hacc
    rw [tryPeers]
    cases hf : fetch addr i with
    | exn =>
      refine ih st _ prev meta owned hm ht ?_
      obtain ⟨a, ha, data, hdata, hne⟩ := hacc
      rcases List.mem_cons.mp ha with rfl | ha'
      · rw [hf] at hdata
        exact absurd hdata (by simp)
      · exact ⟨a, ha', data, hdata, hne⟩
    | failed =>
      refine ih st _ none meta owned hm ht ?_
      obtain ⟨a, ha, data, hdata, hne⟩ := hacc
      rcases List.mem_cons.mp ha with rfl | ha'
      · rw [hf] at hdata
        exact absurd hdata (by simp)
      · exact ⟨a, ha', data, hdata, hne⟩
    | ok data =>
      dsimp only
      by_cases hemp : data.isEmpty
      · rw [if_pos hemp]
        refine ih st _ (some data) meta owned hm ht ?_
        obtain ⟨a, ha, data', hdata', hne'⟩ := hacc
        rcases List.mem_cons.mp ha with rfl | ha'
        · rw [hf] at hdata'
          obtain rfl : data = data' := by injection hdata'
          exact absurd (List.isEmpty_iff.mp hemp) hne'
        · exact ⟨a, ha', data', hdata', hne'⟩
      · rw [if_neg hemp, store_chunk_true_eq st H i data meta owned hm ht]
        refine ⟨_, _, data, rfl, fun hc => hemp (by rw [hc]; rfl), rfl, ?_⟩
        exact lookupA_setA_self _ _ _

/-- C5 (amended): if every candidate peer is exhausted for some chunk in
the work list, the download loop aborts right there — it returns with
`completed = false`, the chunks before the failing one are stored, and
none of the remaining chunks is attempted (the bitmap gains exactly the
prefix); there is no "Stalled" status in the code. -/
theorem downloadLoop_aborts_on_exhausted_chunk (fetch : Addr → Nat → FetchResult)
    (map : List (String × Addr)) (addrs : List Addr) (H : String) :
    ∀ (pre : List Nat) (i₀ : Nat) (post : List Nat) (st : StorageState) (db : RepDb)
      (meta : FileMeta) (owned : Finset Nat),
      lookupA H st.file_metadata = some meta →
      lookupA H st.chunk_tracker = some owned →
      (∀ i ∈ pre, ∃ addr ∈ addrs, ∃ data, fetch addr i = .ok data ∧ data ≠ []) →
      (∀ addr ∈ addrs, ∀ data, fetch addr i₀ = .ok data → data = []) →
      ∃ st' db', downloadLoop fetch map addrs H (pre ++ i₀ :: post) st db = (st', db', false) ∧
        lookupA H st'.chunk_tracker = some (owned ∪ pre.toFinset) := by
  intro pre
  induction pre with
  | nil =>
    intro i₀ post st db meta owned hm ht _ hbad
    rw [List.nil_append, downloadLoop]
    obtain ⟨db', cd, heq, hcd⟩ :=
      tryPeers_all_fail fetch map H i₀ addrs st db none rfl hbad
    rw [heq]
    simp only [hcd, Bool.false_eq_true, if_false]
    exact ⟨st, db', rfl, by simpa using ht⟩
  | cons i pre ih =>
    intro i₀ post st db meta owned hm ht hpre hbad
    rw [List.cons_append, downloadLoop]
    obtain ⟨st₂, db₂, data, heq, hne, hfm, htr⟩ :=
      tryPeers_succeeds fetch map H i addrs st db none meta owned hm ht
        (hpre i (List.mem_cons_self _ _))
    rw [heq]
    have htruthy : pythonTruthy (some data) = true := by
      cases data with
      | nil => exact absurd rfl hne
      | cons b bs => rfl
    simp only [htruthy, if_true]
    obtain ⟨st', db', heq', htr'⟩ := ih i₀ post st₂ db₂ meta (insert i owned)
      (by rw [hfm]; exact hm) htr
      (fun j hj => hpre j (List.mem_cons_of_mem _ hj)) hbad
    refine ⟨st', db', heq', ?_⟩
    rw [htr']
    congr 1
    rw [List.toFinset_cons]
    rw [Finset.insert_union, Finset.union_insert]

/-- C5 witness: one peer, work list `[0, 1]`, chunk 0 obtainable and
chunk 1 refused by everyone: the loop stores chunk 0, aborts at chunk 1,
and returns `completed = false`. -/
theorem downloadLoop_aborts_witness :
    (downloadLoop (fun _ i => if i = 0 then .ok [9] else .failed)
        [("p1", ("ip1", 1))] [("ip1", 1)] "h" [0, 1]
        ⟨[("h", ⟨"f", 2, "h", 2, ["c0", "c1"]⟩)], [("h", ∅)], [], [], none⟩ []).2.2 = false ∧
    lookupA "h" (downloadLoop (fun _ i => if i = 0 then .ok [9] else .failed)
        [("p1", ("ip1", 1))] [("ip1", 1)] "h" [0, 1]
        ⟨[("h", ⟨"f", 2, "h", 2, ["c0", "c1"]⟩)], [("h", ∅)], [], [], none⟩ []).1.chunk_tracker =
      some {0} := by
  obtain ⟨st', db', heq, htr⟩ := downloadLoop_aborts_on_exhausted_chunk
    (fun _ i => if i = 0 then .ok [9] else .failed) [("p1", ("ip1", 1))] [("ip1", 1)] "h"
    [0] 1 [] ⟨[("h", ⟨"f", 2, "h", 2, ["c0", "c1"]⟩)], [("h", ∅)], [], [], none⟩ []
    ⟨"f", 2, "h", 2, ["c0", "c1"]⟩ ∅ (by decide) (by decide)
    (fun i hi => ⟨("ip1", 1), by decide, [9], by
      obtain rfl : i = 0 := by simpa using hi
      exact ⟨rfl, by decide⟩⟩)
    (fun addr _ data hdata => by
      simp only [if_neg (by decide : ¬ (1 = 0))] at hdata
      exact absurd hdata (by simp))
  have heq' : downloadLoop (fun _ i => if i = 0 then .ok [9] else .failed)
      [("p1", ("ip1", 1))] [("ip1", 1)] "h" [0, 1]
      ⟨[("h", ⟨"f", 2, "h", 2, ["c0", "c1"]⟩)], [("h", ∅)], [], [], none⟩ [] =
      (st', db', false) := heq
  rw [heq', htr]
  exact ⟨rfl, by decide⟩

/-- C5 counterexample: in the same scenario — chunk 0 unobtainable from
the only peer while chunk 1 is obtainable — the job does not continue
with the remaining chunks: it returns immediately (`completed = false`)
with the bitmap still empty, so the obtainable chunk 1 was never
attempted, contradicting the claimed keep-going behaviour. -/
theorem downloadLoop_abort_counterexample :
    (downloadLoop (fun _ i => if i = 0 then .failed else .ok [7])
        [("p1", ("ip1", 1))] [("ip1", 1)] "h" [0, 1]
        ⟨[("h", ⟨"f", 2, "h", 2, ["c0", "c1"]⟩)], [("h", ∅)], [], [], none⟩ []).2.2 = false ∧
    (downloadLoop (fun _ i => if i = 0 then .failed else .ok [7])
        [("p1", ("ip1", 1))] [("ip1", 1)] "h" [0, 1]
        ⟨[("h", ⟨"f", 2, "h", 2, ["c0", "c1"]⟩)], [("h", ∅)], [], [], none⟩ []).1 =
      ⟨[("h", ⟨"f", 2, "h", 2, ["c0", "c1"]⟩)], [("h", ∅)], [], [], none⟩ ∧
    (fun (_ : Addr) i => if i = 0 then FetchResult.failed else FetchResult.ok [7])
      ("ip1", 1) 1 = FetchResult.ok [7] ∧
    ([7] : List Byte) ≠ [] := by
  refine ⟨by decide, by decide, rfl, by decide⟩

/-- C1: the download loop stores whatever non-empty bytes a peer returns
without any digest check: with `chunk_hashes[0]` a digest the payload
`[65]` cannot match, the loop still writes `h.0`, marks chunk 0 owned,
and records exactly one `SUCCESSFUL_DOWNLOAD` (score 43/5 = 8.6, one
interaction) — no `CORRUPTED_DATA` (which would leave score 7) and no
`VERIFIED_INTEGRITY` event is ever recorded by `Peer.download_file`. -/
theorem downloadLoop_no_verification :
    downloadLoop (fun _ _ => .ok [65]) [("p1", ("ip1", 1))] [("ip1", 1)] "h" [0]
        ⟨[("h", ⟨"f", 1, "h", 1, ["deadbeef"]⟩)], [("h", ∅)], [], [], none⟩ [] =
      (⟨[("h", ⟨"f", 1, "h", 1, ["deadbeef"]⟩)], [("h", {0})], [],
        [(chunkFileName "h" 0, [65])],
        some ([("h", ⟨"f", 1, "h", 1, ["deadbeef"]⟩)], [("h", {0})], [])⟩,
       update_reputation [] "p1" "SUCCESSFUL_DOWNLOAD", true) ∧
    lookupA "p1" (update_reputation [] "p1" "SUCCESSFUL_DOWNLOAD") = some (43/5, 1) ∧
    lookupA "p1" (update_reputation [] "p1" "CORRUPTED_DATA") = some (7, 1) := by
  refine ⟨rfl, ?_, ?_⟩
  · have h3 : lookupA "SUCCESSFUL_DOWNLOAD" REPUTATION_RULES = some 3 := by decide
    simp only [update_reputation, h3, lookupA_nil, Option.getD_none]
    rw [lookupA_setA_self]
    norm_num [ALPHA, BETA, DEFAULT_REPUTATION]
  · have h5 : lookupA "CORRUPTED_DATA" REPUTATION_RULES = some (-5) := by decide
    simp only [update_reputation, h5, lookupA_nil, Option.getD_none]
    rw [lookupA_setA_self]
    norm_num [ALPHA, BETA, DEFAULT_REPUTATION]

end P2P
